import Mathlib

/-!
Verification of the `mu` fleet-usage monitor (Rust) against its specification.

The Rust sources are shallowly embedded below:
* floating-point quantities (`f32`/`f64` CPU percentages and load averages) are
  carried exactly as rationals (`Rat`); the IEEE special cases the code can hit
  (division by zero, saturating integer casts) are written out explicitly at the
  spot where the corresponding Rust expression produces them;
* hash maps (`std::collections::HashMap`) are embedded as association lists in
  first-occurrence key order; since a `HashMap`'s iteration order is arbitrary,
  properties that depend on it are stated for every permutation of that list;
* fallible or effectful steps (ssh connections, remote execution, JSON
  deserialization) are abstracted as oracle functions returning `Option`.
-/

/- ## Shared data model (src/model.rs, src/info.rs) -/

/-- A per-process usage sample (`Process` in src/model.rs and src/info.rs):
process name, owning user, and CPU percentage. -/
structure Process where
  name : String
  user : String
  usage : Rat
deriving DecidableEq, Repr

/-- Load averages (`LoadAvg` in src/model.rs). -/
structure LoadAvg where
  one : Rat
  five : Rat
  fifteen : Rat
deriving DecidableEq, Repr

/-- Memory figures (`Memory` in src/model.rs). -/
structure Memory where
  total : Nat
  used : Nat
deriving DecidableEq, Repr

/-- One machine's snapshot (`Info` in src/info.rs / `Usage` plus hostname in
src/model.rs).  The `processes`/`usage` hash maps of src/info.rs are recovered
from the flat sample list by grouping (see `byUsers` below), exactly as
src/model.rs stores the samples flat and groups on demand. -/
structure Info where
  hostname : String
  global_cpu_usage : Rat
  cpus : List Rat
  load_avg : LoadAvg
  mem : Memory
  processes : List Process
deriving DecidableEq, Repr

/- ## Local sampler filtering policy (src/config.rs, src/bin/mu-bee/model.rs, src/info.rs) -/

/-- The filtering/renaming policy (`Config` in src/config.rs): ignored process
names, ignored users, and a rename dictionary.  The dictionary is an
association list with unique keys (the parser overwrites duplicates). -/
structure Config where
  ignoredProcesses : List String
  ignoredUsers : List String
  renameMap : List (String × String)
deriving DecidableEq, Repr

/-- `Config::is_ignored_user` (src/config.rs). -/
def Config.isIgnoredUser (c : Config) (user : String) : Bool :=
  c.ignoredUsers.contains user

/-- `Config::is_ignored_process` (src/config.rs). -/
def Config.isIgnoredProcess (c : Config) (proc : String) : Bool :=
  c.ignoredProcesses.contains proc

/-- `Config::get_canonical_name` (src/config.rs). -/
def Config.getCanonicalName (c : Config) (proc : String) : Option String :=
  c.renameMap.lookup proc

/-- `PROCESS_USAGE_THRESHOLD_PERCENT` (src/info.rs, src/model.rs). -/
def PROCESS_USAGE_THRESHOLD_PERCENT : Rat := 10

/-- A raw per-process observation handed to the sampler loop by the probe
(sysinfo), after user-name resolution: name, resolved user, CPU percentage.
The sampler's own pid is excluded before this point by the `continue` on
`get_current_pid`. -/
structure RawProc where
  name : String
  user : String
  cpu : Rat
deriving DecidableEq, Repr

/-- The sample a kept observation is stored as: renamed via the dictionary
(the ignore checks having used the original name). -/
def mkSample (config : Config) (p : RawProc) : Process :=
  { name := (config.getCanonicalName p.name).getD p.name
    user := p.user
    usage := p.cpu }

/-- The per-process filtering loop shared by `Gather::gather for Usage`
(src/bin/mu-bee/model.rs lines 19-50) and `Info::new` (src/info.rs lines
135-169): skip when the user or the (original) name is ignored or the CPU
percentage is below the threshold, else store the (possibly renamed) sample. -/
def gatherProcesses (config : Config) (raw : List RawProc) : List Process :=
  raw.filterMap fun p =>
    if config.isIgnoredUser p.user || config.isIgnoredProcess p.name then none
    else if p.cpu < PROCESS_USAGE_THRESHOLD_PERCENT then none
    else some (mkSample config p)

/- ## Grouping samples by user (src/model.rs `Processes::by_users`) -/

/-- The distinct user names of a sample list, in first-occurrence order:
these are the keys of the `HashMap` built by `Processes::by_users`
(src/model.rs lines 193-199). -/
def userKeys (ps : List Process) : List String :=
  (ps.map Process.user).dedup

/-- The content of the `HashMap` built by `Processes::by_users`: every user
mapped to their samples in sample order (the map's vectors are filled by one
pass over the slice, so each user's vector holds that user's samples in slice
order).  The association list fixes first-occurrence key order as a canonical
representative; iteration-order-sensitive consumers are quantified over all
permutations of it. -/
def byUsers (ps : List Process) : List (String × List Process) :=
  (userKeys ps).map fun u => (u, ps.filter fun p => p.user = u)

/-- Rust's `Iterator::max_by_key`: the element with the maximal key, the last
one under ties, `none` for an empty iterator. -/
def maxByKeyLast {α β : Type} [LinearOrder β] (f : α → β) : List α → Option α
  | [] => none
  | x :: xs =>
    match maxByKeyLast f xs with
    | none => some x
    | some y => if f y < f x then some x else some y

/-- `u64::MAX`, the saturation point of Rust's float-to-`u64` casts. -/
def U64_MAX : Nat := 2 ^ 64 - 1

/-- Rust's `as u64` cast applied to a finite float: negative values saturate
to 0, others are truncated toward zero and saturate at `u64::MAX`. -/
def truncU64 (x : Rat) : Nat :=
  if x < 0 then 0 else min x.floor.toNat U64_MAX

/-- The key `|(_, cores)| cores.iter().map(|cu| cu.usage as u64).sum::<u64>()`
used by the active-user `max_by_key` (src/bin/mu/view.rs line 132): the sum of
the integer-truncated CPU percentages of one user's samples. -/
def userSum (e : String × List Process) : Nat :=
  (e.2.map fun p => truncU64 p.usage).sum

/-- The view-model active-user record (`ActiveUser` in src/model.rs). -/
structure ActiveUser where
  user : String
  cores : Nat
  task : String
deriving DecidableEq, Repr

/-- The active-user selection of `MachineView::new` (src/bin/mu/view.rs lines
129-141), starting from the user map in a given iteration order: `max_by_key`
over users by truncated CPU sum, then the user name, the number of samples,
and the name of the sample with maximal truncated CPU (`unwrap_or("?")` for
the unreachable empty-group case). -/
def activeUserFrom (assoc : List (String × List Process)) : Option ActiveUser :=
  (maxByKeyLast userSum assoc).map fun e =>
    { user := e.1
      cores := e.2.length
      task := ((maxByKeyLast (fun p => truncU64 p.usage) e.2).map Process.name).getD ("?") }

/-- `MachineView::new`'s active user for a machine's sample list, with the
user map read in canonical (first-occurrence) order. -/
def machineActiveUser (ps : List Process) : Option ActiveUser :=
  activeUserFrom (byUsers ps)

/-- The exact (untruncated) cumulative CPU percentage of a sample list. -/
def ratSum (ps : List Process) : Rat :=
  (ps.map Process.usage).sum

/- ## Orchestrator fan-out (src/bin/mu-hive/main.rs `gather`, `peruse`) -/

/-- One roster entry (`Machine`/`MachineDefinition` in src/bin/mu-hive/config.rs):
hostname, room, and optional owner note. -/
structure Machine where
  hostname : String
  room : String
  note : Option String
deriving DecidableEq, Repr

/-- A successful per-machine result (`RichInfo` in src/info.rs): the machine's
snapshot together with the roster entry's room and note. -/
structure RichInfo where
  room : String
  note : Option String
  info : Info
deriving DecidableEq, Repr

/-- `gather` (src/bin/mu-hive/main.rs lines 39-51).  The ssh connection, the
remote `mu-bee` execution, and the JSON deserialization of its stdout are
abstracted as the oracle `bee`; `none` covers every failure mode of the three
`?` operators in the source (connection error, remote execution error,
deserialization error), after which `gather` returns
`RichInfo::new(info, machine.room, machine.note)`. -/
def gather (bee : Machine → Option Info) (m : Machine) : Option RichInfo :=
  (bee m).map fun info => ⟨m.room, m.note, info⟩

/-- The result of one `peruse` run: the aggregated entries and the
`(successes, total)` summary reported after the join loop. -/
structure PeruseResult where
  entries : List RichInfo
  successes : Nat
  total : Nat
deriving DecidableEq, Repr

/-- `peruse` (src/bin/mu-hive/main.rs lines 53-85): one task is spawned per
roster entry, then every task is awaited in roster order; an `Ok` pushes its
`RichInfo`, an `Err` only logs, so the entries are the roster's successful
gathers in roster order.  The summary `(nsuccess, n)` is computed after the
loop from the final entry list and the roster length. -/
def peruse (bee : Machine → Option Info) (ms : List Machine) : PeruseResult :=
  let entries := ms.filterMap (gather bee)
  ⟨entries, entries.length, ms.length⟩

/- ## Fleet totals (src/bin/mu/view.rs `HeaderView::new`, src/bin/mu/data.rs `total_usage`) -/

/-- Total fleet core count (`ClusterUsage::cpu_count` in src/model.rs,
`cpu_count` in src/bin/mu/data.rs). -/
def cpuCount (ms : List Info) : Nat :=
  (ms.map fun i => i.cpus.length).sum

/-- Fleet total usage (`HeaderView::new`, src/bin/mu/view.rs lines 42-50, and
`total_usage`, src/bin/mu/data.rs lines 65-76): the sum of all per-core
percentages divided by 100 times the total core count.  The division is
floating-point in the source; when the fleet has zero total cores both
operands are 0 and `0.0 / 0.0` is IEEE NaN, embedded here as `none`. -/
def totalUsage (ms : List Info) : Option Rat :=
  let used := (ms.map fun i => i.cpus.sum).sum
  let total := (ms.map fun i => (i.cpus.length : Rat) * 100).sum
  if total = 0 then none else some (used / total)

/- ## Hotness bucket (src/bin/mu-web/data.rs `DataView::machines` lines 42-49) -/

/-- `usize::MAX` on the 64-bit targets the program runs on. -/
def USIZE_MAX : Nat := 2 ^ 64 - 1

/-- Rust's `as usize` cast applied to a finite float: negative values saturate
to 0, others are truncated toward zero and saturate at `usize::MAX`. -/
def f64ToUsize (x : Rat) : Nat :=
  if x < 0 then 0 else min x.floor.toNat USIZE_MAX

/-- The hotness bucket (src/bin/mu-web/data.rs lines 47-49):
`t = load_avg.five / cpu_usage.total as f64`, then
`((t * (N_COLORS - 1) as f64) as usize).clamp(0, N_COLORS - 1)` with
`N_COLORS = 10`.  The clamp's lower bound is vacuous on naturals, leaving
`min _ 9`.  When the machine reports zero cores the f64 division by zero
follows IEEE-754: a positive load gives `+inf`, whose `as usize` cast
saturates to `usize::MAX` and clamps to 9; a zero load gives NaN, whose cast
is 0; a negative load gives `-inf`, whose cast is 0.  Finite values are
carried exactly as rationals.  `Colors::pick_gradient_color`
(src/bin/mu/config.rs lines 50-58) applies the same truncating cast and clamp
to an already-computed ratio. -/
def hotness (five : Rat) (cores : Nat) : Nat :=
  if cores = 0 then
    if 0 < five then min USIZE_MAX 9 else 0
  else
    min (f64ToUsize (five / (cores : Rat) * 9)) 9

/- ## Fleet user ranking (src/bin/mu/view.rs `StatsView::new`, src/bin/mu/data.rs `tpu`) -/

/-- All samples across the fleet, in fleet order (the nested loop of
`StatsView::new` lines 66-71 and `tpu` lines 82-88 walks machines in order
and each machine's user map; summing `procs.len()` per user over machines
totals, for each user, the number of that user's samples fleet-wide). -/
def fleetProcs (ms : List Info) : List Process :=
  (ms.map Info.processes).flatten

/-- The content of the `tpu` hash map (user, fleet-wide sample count), keys in
first-occurrence order; iteration order is irrelevant downstream because the
list is sorted by a total order on (count, name) before use. -/
def fleetUserCounts (ms : List Info) : List (String × Nat) :=
  (userKeys (fleetProcs ms)).map fun u =>
    (u, ((fleetProcs ms).filter fun p => p.user = u).length)

/-- Strict lexicographic comparison of character lists by code point: the
order `String: Ord` gives Rust strings (UTF-8 byte order, which equals
code-point order). -/
def strLtB : List Char → List Char → Bool
  | [], [] => false
  | [], _ :: _ => true
  | _ :: _, [] => false
  | a :: as, b :: bs =>
    if a.toNat < b.toNat then true
    else if b.toNat < a.toNat then false
    else strLtB as bs

/-- The non-strict string order, `a ≤ b` as the negation of `b < a`. -/
def strLeB (a b : String) : Bool := !(strLtB b.data a.data)

/-- The ascending comparison `Vec::<(usize, String)>::sort` sorts by
(src/bin/mu/view.rs line 76): lexicographic on count then user name.
`sort_by_key(|(name, tasks_sum)| (*tasks_sum, *name))` (src/bin/mu/data.rs
line 92) is the same order on (user, count) pairs. -/
def leTpu (a b : Nat × String) : Prop :=
  a.1 < b.1 ∨ (a.1 = b.1 ∧ strLeB a.2 b.2 = true)

instance : DecidableRel leTpu := fun a b => by
  unfold leTpu; infer_instance

/-- The sorted `tpu` list of `(threads, user)` pairs (src/bin/mu/view.rs lines
75-76): collect the map into pairs with the count first and sort ascending. -/
def tpuSorted (ms : List Info) : List (Nat × String) :=
  List.insertionSort leTpu ((fleetUserCounts ms).map fun e => (e.2, e.1))

/-- The fleet user ranking in display order, as (user, count) pairs: the
sorted list walked in reverse (`.rev()`, src/bin/mu/view.rs line 81 and
src/bin/mu/main.rs line 309). -/
def ranking (ms : List Info) : List (String × Nat) :=
  (tpuSorted ms).reverse.map fun e => (e.2, e.1)

/-- The displayed ranking after the filters of `StatsView::new` (lines 82-91):
a zero-thread user is skipped, and a user is skipped when
`100.0 * threads / total_cpus < 1.0`.  The division is f32: with zero total
cores and a positive count it yields `+inf`, which is not below 1, so the
entry is kept; that case is written out explicitly.  Finite comparisons are
exact: for positive `total`, `100 * threads / total < 1 ↔ 100 * threads <
total`. -/
def statsView (ms : List Info) : List (String × Nat) :=
  (ranking ms).filter fun e =>
    e.2 ≠ 0 && (cpuCount ms = 0 || 100 * e.2 ≥ cpuCount ms)

/- ## Roster parsing (src/bin/mu-hive/config.rs `MachineDefinitions::read_from_config`) -/

/-- `str::split_once` on a character list: split at the first occurrence of
`c`, returning the parts before and after it, or `none` when absent. -/
def splitOnceChar (c : Char) : List Char → Option (List Char × List Char)
  | [] => none
  | x :: xs =>
    if x = c then some ([], xs)
    else (splitOnceChar c xs).map fun r => (x :: r.1, r.2)

/-- `str::split_once` on strings. -/
def splitOnce (c : Char) (s : String) : Option (String × String) :=
  (splitOnceChar c s.data).map fun r => (String.mk r.1, String.mk r.2)

/-- The comment-stripping step of the roster loop (src/bin/mu-hive/config.rs
lines 54-59): keep what precedes the first `#`, then trim. -/
def stripComment (line : String) : String :=
  (match splitOnce '#' line with
   | some r => r.1
   | none => line).trim

/-- The header test (lines 67-72): `strip_prefix('[')` then `strip_suffix(']')`
on the remainder, trimming the inside. -/
def headerOf (line : String) : Option String :=
  match line.data with
  | '[' :: rest =>
    match rest.reverse with
    | ']' :: mid => some (String.mk mid.reverse).trim
    | _ => none
  | [] => none
  | _ :: _ => none

/-- The machine-line parse (lines 79-89): `split_once(':')` yields the
hostname and the note, both trimmed, an empty note becoming `None`; a line
without a colon yields nothing (the `else { continue }` branch). -/
def parseMachineLine (room : String) (line : String) : Option Machine :=
  match splitOnce ':' line with
  | none => none
  | some r =>
    some
      { hostname := r.1.trim
        room := room
        note := if r.2.trim = "" then none else some r.2.trim }

/-- The roster parsing loop (src/bin/mu-hive/config.rs lines 50-93) over the
file's lines, carrying the current room header: comments and blank lines are
skipped, a header line updates the room, a machine line is parsed under the
current room (or `"orphan"` before any header), and a malformed machine line
is skipped by the `let-else` `continue`. -/
def parseMachinesAux (room : Option String) : List String → List Machine
  | [] => []
  | line :: rest =>
    let l := stripComment line
    if l = "" then parseMachinesAux room rest
    else
      match headerOf l with
      | some h => parseMachinesAux (some h) rest
      | none =>
        match parseMachineLine (room.getD ("orphan")) l with
        | none => parseMachinesAux room rest
        | some m => m :: parseMachinesAux room rest

/-- `MachineDefinitions::read_from_config`, after the file has been read into
lines (the file-system read itself is out of scope). -/
def parseMachines (lines : List String) : List Machine :=
  parseMachinesAux none lines

/- ## Legacy terminal viewer (src/data.rs `Data::machines`) -/

/-- A legacy per-core usage record (`CoreUsage` in src/data.rs). -/
structure CoreUsage where
  percentage : Rat
  load_average : Rat
  process_name : String
deriving DecidableEq, Repr

/-- The legacy `usage` hash map (user to core-usage records), as an
association list in some iteration order. -/
abbrev CoreUsagePerUser := List (String × List CoreUsage)

/-- The pre-filter active-user selection of the legacy `Data::machines`
(src/data.rs lines 46-59): `max_by_key` over users by the sum of the
integer-truncated percentages, reporting the user, the record count, and the
record with the maximal truncated percentage. -/
def legacyActive (usage : CoreUsagePerUser) : Option ActiveUser :=
  (maxByKeyLast (fun e => (e.2.map fun cu => truncU64 cu.percentage).sum) usage).map fun e =>
    { user := e.1
      cores := e.2.length
      task := ((maxByKeyLast (fun cu => truncU64 cu.percentage) e.2).map
        CoreUsage.process_name).getD ("?") }

/-- The hard-coded viewer-side ignore list (src/data.rs line 45). -/
def legacyIgnoreUsers : List String := [("sshuser"), ("root")]

/-- The legacy active user (src/data.rs lines 46-60): the selection above,
then `Option::filter` discarding it entirely when the selected user is in the
ignore list. -/
def legacyActiveUser (usage : CoreUsagePerUser) : Option ActiveUser :=
  (legacyActive usage).filter fun au => !(legacyIgnoreUsers.contains au.user)

/- ## Concrete instances used by witnesses and counterexamples -/

/-- A snapshot with the given hostname and no other content. -/
def mkInfo (h : String) : Info :=
  { hostname := h, global_cpu_usage := 0, cpus := [], load_avg := ⟨0, 0, 0⟩
    mem := ⟨0, 0⟩, processes := [] }

/-- A bee oracle that fails for the hostname `bad` and otherwise reports the
machine's own hostname. -/
def beeW : Machine → Option Info :=
  fun m => if m.hostname = ("bad") then none else some (mkInfo m.hostname)

/-- A bee oracle that always succeeds, reporting the machine's hostname. -/
def beeAll : Machine → Option Info :=
  fun m => some (mkInfo m.hostname)

/-- A three-machine roster whose middle machine fails under `beeW`. -/
def msW : List Machine :=
  [⟨("m1"), ("lab"), none⟩, ⟨("bad"), ("lab"), none⟩, ⟨("m2"), ("lab"), none⟩]

/-- A roster entry listed twice in the duplicate-roster counterexample. -/
def mDup : Machine := ⟨("m1"), ("lab"), none⟩

/-- Samples where user `a` has the larger exact CPU sum (21.8 against 21) but
user `b` has the larger truncated sum (21 against 20). -/
def exC5 : List Process :=
  [⟨("x1"), ("a"), mkRat 109 10⟩, ⟨("x2"), ("a"), mkRat 109 10⟩, ⟨("y"), ("b"), 21⟩]

/-- Samples of two users with exactly tied CPU sums. -/
def exC8 : List Process := [⟨("x"), ("a"), 20⟩, ⟨("y"), ("b"), 20⟩]

/-- Samples of two users with distinct CPU sums. -/
def exC8u : List Process := [⟨("x"), ("a"), 20⟩, ⟨("y"), ("b"), 21⟩]

/-- A ten-core machine whose samples count 4 for alice, 4 for bob and 1 for
carl (the ranking example of the specification). -/
def exC3 : Info :=
  { hostname := ("m1"), global_cpu_usage := 0
    cpus := [0, 0, 0, 0, 0, 0, 0, 0, 0, 0]
    load_avg := ⟨0, 0, 0⟩, mem := ⟨0, 0⟩
    processes :=
      [⟨("p1"), ("alice"), 50⟩, ⟨("p2"), ("alice"), 50⟩, ⟨("p3"), ("alice"), 50⟩,
       ⟨("p4"), ("alice"), 50⟩, ⟨("q1"), ("bob"), 50⟩, ⟨("q2"), ("bob"), 50⟩,
       ⟨("q3"), ("bob"), 50⟩, ⟨("q4"), ("bob"), 50⟩, ⟨("r1"), ("carl"), 50⟩] }

/-- A two-core machine with both cores at 50%. -/
def exC7 : Info :=
  { hostname := ("m1"), global_cpu_usage := 0, cpus := [50, 50]
    load_avg := ⟨0, 0, 0⟩, mem := ⟨0, 0⟩, processes := [] }

/-- A legacy usage map where root has the top truncated CPU sum and another
user also has samples. -/
def exC10 : CoreUsagePerUser :=
  [(("ann"), [⟨20, 0, ("vim")⟩]), (("root"), [⟨90, 0, ("cc")⟩])]

/- ## Helper lemmas -/

theorem maxByKeyLast_eq_none_iff {α β : Type} [LinearOrder β] (f : α → β) (l : List α) :
    maxByKeyLast f l = none ↔ l = [] := by
  cases l with
  | nil => simp [maxByKeyLast]
  | cons x xs =>
    simp only [maxByKeyLast]
    cases h : maxByKeyLast f xs <;> simp [h]
    split <;> simp

theorem maxByKeyLast_mem {α β : Type} [LinearOrder β] (f : α → β) :
    ∀ (l : List α) (x : α), maxByKeyLast f l = some x → x ∈ l := by
  intro l
  induction l with
  | nil => intro x h; simp [maxByKeyLast] at h
  | cons a t ih =>
    intro x h
    simp only [maxByKeyLast] at h
    cases ht : maxByKeyLast f t with
    | none => rw [ht] at h; simp at h; simp [h]
    | some y =>
      rw [ht] at h
      simp only at h
      split at h
      · simp at h; simp [h]
      · simp at h; subst h; exact List.mem_cons_of_mem a (ih y ht)

theorem maxByKeyLast_cons {α β : Type} [LinearOrder β] (f : α → β) (a : α) (t : List α) :
    maxByKeyLast f (a :: t) =
      match maxByKeyLast f t with
      | none => some a
      | some y => if f y < f a then some a else some y := rfl

theorem maxByKeyLast_le {α β : Type} [LinearOrder β] (f : α → β) :
    ∀ (l : List α) (x : α), maxByKeyLast f l = some x → ∀ y ∈ l, f y ≤ f x := by
  intro l
  induction l with
  | nil => intro x h; simp [maxByKeyLast] at h
  | cons a t ih =>
    intro x h y hy
    rw [maxByKeyLast_cons] at h
    cases ht : maxByKeyLast f t with
    | none =>
      rw [ht] at h; simp only [Option.some.injEq] at h; subst h
      rcases List.mem_cons.mp hy with hy | hy
      · exact (congrArg f hy).le
      · exact absurd ((maxByKeyLast_eq_none_iff f t).mp ht ▸ hy) (List.not_mem_nil y)
    | some z =>
      rw [ht] at h
      simp only at h
      by_cases hlt : f z < f a
      · rw [if_pos hlt] at h
        simp only [Option.some.injEq] at h; subst h
        rcases List.mem_cons.mp hy with hy | hy
        · exact (congrArg f hy).le
        · exact (ih z ht y hy).trans hlt.le
      · rw [if_neg hlt] at h
        simp only [Option.some.injEq] at h; subst h
        rcases List.mem_cons.mp hy with hy | hy
        · subst hy; exact le_of_not_lt hlt
        · exact ih _ ht y hy

theorem maxByKeyLast_of_uniqueMax {α β : Type} [LinearOrder β] (f : α → β) :
    ∀ (l : List α) (x : α), x ∈ l → (∀ y ∈ l, f y ≤ f x) → (∀ y ∈ l, f y = f x → y = x) →
      maxByKeyLast f l = some x := by
  intro l
  induction l with
  | nil => intro x hx; simp at hx
  | cons a t ih =>
    intro x hx hmax huniq
    rw [maxByKeyLast_cons]
    cases ht : maxByKeyLast f t with
    | none =>
      have hnil : t = [] := (maxByKeyLast_eq_none_iff f t).mp ht
      subst hnil
      simp only [List.mem_singleton] at hx
      simp [hx]
    | some z =>
      simp only
      have hz := maxByKeyLast_mem f t z ht
      rcases List.mem_cons.mp hx with hx | hx
      · subst hx
        have hle : f z ≤ f x := hmax z (List.mem_cons_of_mem x hz)
        rcases lt_or_eq_of_le hle with hlt | heq
        · rw [if_pos hlt]
        · have hzx : z = x := huniq z (List.mem_cons_of_mem x hz) heq
          subst hzx
          split <;> rfl
      · have hzx : z = x := by
          apply huniq z (List.mem_cons_of_mem a hz)
          exact le_antisymm (hmax z (List.mem_cons_of_mem a hz))
            (maxByKeyLast_le f t z ht x hx)
        subst hzx
        have hax : f a ≤ f z := hmax a (List.mem_cons_self a t)
        rw [if_neg (not_lt.mpr hax)]

theorem mem_userKeys (ps : List Process) (u : String) :
    u ∈ userKeys ps ↔ ∃ p ∈ ps, p.user = u := by
  simp [userKeys, List.mem_dedup, List.mem_map]

theorem mem_byUsers (ps : List Process) (e : String × List Process) :
    e ∈ byUsers ps ↔ e.1 ∈ userKeys ps ∧ e.2 = ps.filter fun p => p.user = e.1 := by
  constructor
  · intro h
    rcases List.mem_map.mp h with ⟨u, hu, he⟩
    cases e
    cases he
    exact ⟨hu, rfl⟩
  · intro ⟨h1, h2⟩
    cases e
    simp only at h1 h2
    rw [h2]
    exact List.mem_map.mpr ⟨_, h1, rfl⟩

theorem byUsers_filter_ne_nil (ps : List Process) (u : String) (h : u ∈ userKeys ps) :
    ps.filter (fun p => p.user = u) ≠ [] := by
  rcases (mem_userKeys ps u).mp h with ⟨p, hp, hpu⟩
  intro hnil
  have : p ∈ ps.filter fun p => p.user = u := List.mem_filter.mpr ⟨hp, by simp [hpu]⟩
  rw [hnil] at this
  exact List.not_mem_nil p this

theorem byUsers_eq_nil_iff (ps : List Process) : byUsers ps = [] ↔ ps = [] := by
  constructor
  · intro h
    cases ps with
    | nil => rfl
    | cons p t =>
      exfalso
      have : p.user ∈ userKeys (p :: t) :=
        (mem_userKeys _ _).mpr ⟨p, List.mem_cons_self p t, rfl⟩
      have hm : (p.user, (p :: t).filter fun q => q.user = p.user) ∈ byUsers (p :: t) :=
        (mem_byUsers _ _).mpr ⟨this, rfl⟩
      rw [h] at hm
      exact List.not_mem_nil _ hm
  · intro h
    subst h
    rfl

theorem filterMap_length_add_none (bee : Machine → Option Info) :
    ∀ ms : List Machine,
      (ms.filterMap (gather bee)).length
        + (ms.filter fun m => (bee m).isNone).length = ms.length := by
  intro ms
  induction ms with
  | nil => rfl
  | cons m t ih =>
    cases hb : bee m with
    | none =>
      rw [List.filterMap_cons_none (by simp [gather, hb])]
      rw [List.filter_cons_of_pos (by simp [hb])]
      simp only [List.length_cons]
      omega
    | some i =>
      rw [List.filterMap_cons_some (show gather bee m = some ⟨m.room, m.note, i⟩ by simp [gather, hb])]
      rw [List.filter_cons_of_neg (by simp [hb])]
      simp only [List.length_cons]
      omega

theorem mem_gatherProcesses (cfg : Config) (raw : List RawProc) (s : Process) :
    s ∈ gatherProcesses cfg raw ↔
      ∃ p ∈ raw, cfg.isIgnoredUser p.user = false ∧ cfg.isIgnoredProcess p.name = false ∧
        PROCESS_USAGE_THRESHOLD_PERCENT ≤ p.cpu ∧ mkSample cfg p = s := by
  simp only [gatherProcesses, List.mem_filterMap]
  constructor
  · rintro ⟨p, hp, h⟩
    by_cases h1 : cfg.isIgnoredUser p.user || cfg.isIgnoredProcess p.name
    · rw [if_pos h1] at h; exact absurd h (by simp)
    · rw [if_neg h1] at h
      by_cases h2 : p.cpu < PROCESS_USAGE_THRESHOLD_PERCENT
      · rw [if_pos h2] at h; exact absurd h (by simp)
      · rw [if_neg h2] at h
        simp only [Option.some.injEq] at h
        simp only [Bool.or_eq_true, not_or, Bool.not_eq_true] at h1
        exact ⟨p, hp, h1.1, h1.2, not_lt.mp h2, h⟩
  · rintro ⟨p, hp, h1, h2, h3, h4⟩
    refine ⟨p, hp, ?_⟩
    rw [if_neg (by simp [h1, h2]), if_neg (not_lt.mpr h3)]
    exact congrArg some h4

theorem strLtB_asymm : ∀ x y, strLtB x y = true → strLtB y x = false := by
  intro x
  induction x with
  | nil =>
    intro y h
    cases y with
    | nil => simp [strLtB] at h
    | cons b bs => simp [strLtB]
  | cons a as ih =>
    intro y h
    cases y with
    | nil => simp [strLtB] at h
    | cons b bs =>
      simp only [strLtB] at h ⊢
      by_cases h1 : a.toNat < b.toNat
      · rw [if_neg (by omega), if_pos h1]
      · by_cases h2 : b.toNat < a.toNat
        · rw [if_neg h1, if_pos h2] at h
          exact absurd h (by simp)
        · rw [if_neg h1, if_neg h2] at h
          rw [if_neg h2, if_neg h1]
          exact ih bs h

theorem strLtB_trans : ∀ x y z, strLtB x y = true → strLtB y z = true → strLtB x z = true := by
  intro x
  induction x with
  | nil =>
    intro y z h1 h2
    cases y with
    | nil => simp [strLtB] at h1
    | cons b bs =>
      cases z with
      | nil => simp [strLtB] at h2
      | cons c cs => simp [strLtB]
  | cons a as ih =>
    intro y z h1 h2
    cases y with
    | nil => simp [strLtB] at h1
    | cons b bs =>
      cases z with
      | nil => simp [strLtB] at h2
      | cons c cs =>
        simp only [strLtB] at h1 h2 ⊢
        by_cases hab : a.toNat < b.toNat <;> by_cases hbc : b.toNat < c.toNat
        · rw [if_pos (by omega)]
        · by_cases hcb : c.toNat < b.toNat
          · rw [if_neg hbc, if_pos hcb] at h2
            exact absurd h2 (by simp)
          · rw [if_pos (by omega)]
        · by_cases hba : b.toNat < a.toNat
          · rw [if_neg hab, if_pos hba] at h1
            exact absurd h1 (by simp)
          · rw [if_pos (by omega)]
        · by_cases hba : b.toNat < a.toNat
          · rw [if_neg hab, if_pos hba] at h1
            exact absurd h1 (by simp)
          · by_cases hcb : c.toNat < b.toNat
            · rw [if_neg hbc, if_pos hcb] at h2
              exact absurd h2 (by simp)
            · rw [if_neg hab, if_neg hba] at h1
              rw [if_neg hbc, if_neg hcb] at h2
              rw [if_neg (by omega), if_neg (by omega)]
              exact ih bs cs h1 h2

theorem strLtB_connex : ∀ x y, strLtB x y = false → strLtB y x = false → x = y := by
  intro x
  induction x with
  | nil =>
    intro y h1 h2
    cases y with
    | nil => rfl
    | cons b bs => simp [strLtB] at h1
  | cons a as ih =>
    intro y h1 h2
    cases y with
    | nil => simp [strLtB] at h2
    | cons b bs =>
      simp only [strLtB] at h1 h2
      by_cases hab : a.toNat < b.toNat
      · rw [if_pos hab] at h1
        exact absurd h1 (by simp)
      · by_cases hba : b.toNat < a.toNat
        · rw [if_pos hba] at h2
          exact absurd h2 (by simp)
        · rw [if_neg hab, if_neg hba] at h1
          rw [if_neg hba, if_neg hab] at h2
          have hn : a.toNat = b.toNat := by omega
          have hc : a = b := Char.eq_of_val_eq (UInt32.ext hn)
          rw [hc, ih bs h1 h2]

theorem strLeB_total (a b : String) : strLeB a b = true ∨ strLeB b a = true := by
  simp only [strLeB, Bool.not_eq_true']
  cases hab : strLtB a.data b.data with
  | true => exact Or.inl (strLtB_asymm _ _ hab)
  | false => exact Or.inr rfl

theorem strLeB_trans (a b c : String) (h1 : strLeB a b = true) (h2 : strLeB b c = true) :
    strLeB a c = true := by
  simp only [strLeB, Bool.not_eq_true'] at h1 h2 ⊢
  by_cases hca : strLtB c.data a.data = true
  · cases hab : strLtB a.data b.data with
    | true => exact absurd (strLtB_trans _ _ _ hca hab) (by simp [h2])
    | false =>
      have he : a.data = b.data := strLtB_connex _ _ hab h1
      rw [he] at hca
      exact absurd hca (by simp [h2])
  · simpa using hca

theorem leTpu_total : ∀ a b : Nat × String, leTpu a b ∨ leTpu b a := by
  intro a b
  rcases lt_trichotomy a.1 b.1 with h | h | h
  · exact Or.inl (Or.inl h)
  · rcases strLeB_total a.2 b.2 with h2 | h2
    · exact Or.inl (Or.inr ⟨h, h2⟩)
    · exact Or.inr (Or.inr ⟨h.symm, h2⟩)
  · exact Or.inr (Or.inl h)

theorem leTpu_trans : ∀ a b c : Nat × String, leTpu a b → leTpu b c → leTpu a c := by
  intro a b c hab hbc
  rcases hab with h | ⟨he, h2⟩ <;> rcases hbc with h' | ⟨he', h2'⟩
  · exact Or.inl (h.trans h')
  · exact Or.inl (he' ▸ h)
  · exact Or.inl (he ▸ h')
  · exact Or.inr ⟨he.trans he', strLeB_trans _ _ _ h2 h2'⟩

/- ## Claim theorems -/

/-- Claim C1: for every roster of `n` machines of which `k` fail (any failure
of the per-machine gather: connection failure, remote execution error, or
output that does not deserialize, all collapsed into the oracle returning
`none`), one peruse run produces exactly `n - k` entries — one per successful
machine, failed machines omitted — and reports the summary
`(successes = n - k, total = n)` computed after the join loop over every
per-machine task; no single machine's failure removes or corrupts another
machine's entry: every successful machine's entry is present regardless of
the other machines' outcomes, and every entry comes from a successful
machine. -/
theorem peruse_failure_isolation :
    ∀ (bee : Machine → Option Info) (ms : List Machine),
      (peruse bee ms).entries.length
          = ms.length - (ms.filter fun m => (bee m).isNone).length ∧
      (peruse bee ms).successes
          = ms.length - (ms.filter fun m => (bee m).isNone).length ∧
      (peruse bee ms).total = ms.length ∧
      (∀ m ∈ ms, ∀ i, bee m = some i →
          (⟨m.room, m.note, i⟩ : RichInfo) ∈ (peruse bee ms).entries) ∧
      (∀ e ∈ (peruse bee ms).entries,
          ∃ m ∈ ms, bee m = some e.info ∧ e.room = m.room ∧ e.note = m.note) := by
  intro bee ms
  have hlen := filterMap_length_add_none bee ms
  have he : (peruse bee ms).entries = ms.filterMap (gather bee) := rfl
  refine ⟨by rw [he]; omega, by rw [show (peruse bee ms).successes
      = (ms.filterMap (gather bee)).length from rfl]; omega, rfl, ?_, ?_⟩
  · intro m hm i hi
    rw [he]
    exact List.mem_filterMap.mpr ⟨m, hm, by simp [gather, hi]⟩
  · intro e hee
    rw [he] at hee
    rcases List.mem_filterMap.mp hee with ⟨m, hm, hg⟩
    cases hb : bee m with
    | none =>
      rw [show gather bee m = none from by simp [gather, hb]] at hg
      cases hg
    | some i =>
      have : e = ⟨m.room, m.note, i⟩ := by
        have : gather bee m = some ⟨m.room, m.note, i⟩ := by simp [gather, hb]
        rw [this] at hg
        exact (Option.some.inj hg).symm
      subst this
      exact ⟨m, hm, by simp [hb], rfl, rfl⟩

/-- Witness for C1 at a concrete roster of three machines of which the second
fails: two entries, summary `(2, 3)`, and the first machine's entry present. -/
theorem peruse_failure_isolation_witness :
    (peruse beeW msW).entries.length = 2 ∧ (peruse beeW msW).successes = 2 ∧
    (peruse beeW msW).total = 3 ∧
    (⟨("lab"), none, mkInfo ("m1")⟩ : RichInfo) ∈ (peruse beeW msW).entries := by
  have h := peruse_failure_isolation beeW msW
  refine ⟨h.1.trans (by decide), h.2.1.trans (by decide), h.2.2.1.trans (by decide), ?_⟩
  exact h.2.2.2.1 ⟨("m1"), ("lab"), none⟩ (by decide) (mkInfo ("m1")) (by decide)

/-- Claim C2: for every filtering policy and every observed process (other
than the sampler's own, which is excluded before the loop), the sampler
stores a sample if and only if the process's resolved user is not in the
ignored users, its original (pre-rename) name is not in the ignored process
names, and its CPU percentage is at least the fixed 10% threshold;
consequently every stored sample's CPU percentage is at least the threshold.
On the policy `{ignored_users: [root]}` with raw observations
`(root, sshd, 50), (ann, vim, 3), (ann, ffmpeg, 80)` exactly
`(ann, ffmpeg, 80)` is stored. -/
theorem sampler_filter_policy :
    (∀ (cfg : Config) (raw : List RawProc), ∀ s ∈ gatherProcesses cfg raw,
        PROCESS_USAGE_THRESHOLD_PERCENT ≤ s.usage) ∧
    (∀ (cfg : Config) (raw : List RawProc), ∀ s ∈ gatherProcesses cfg raw,
        ∃ p ∈ raw, cfg.isIgnoredUser p.user = false ∧ cfg.isIgnoredProcess p.name = false ∧
          PROCESS_USAGE_THRESHOLD_PERCENT ≤ p.cpu ∧ mkSample cfg p = s) ∧
    (∀ (cfg : Config) (raw : List RawProc), ∀ p ∈ raw,
        cfg.isIgnoredUser p.user = false → cfg.isIgnoredProcess p.name = false →
        PROCESS_USAGE_THRESHOLD_PERCENT ≤ p.cpu →
        mkSample cfg p ∈ gatherProcesses cfg raw) ∧
    gatherProcesses ⟨[], [("root")], []⟩
        [⟨("sshd"), ("root"), 50⟩, ⟨("vim"), ("ann"), 3⟩, ⟨("ffmpeg"), ("ann"), 80⟩]
      = [⟨("ffmpeg"), ("ann"), 80⟩] := by
  refine ⟨?_, ?_, ?_, by decide⟩
  · intro cfg raw s hs
    rcases (mem_gatherProcesses cfg raw s).mp hs with ⟨p, _, _, _, h3, h4⟩
    rw [← h4]
    exact h3
  · intro cfg raw s hs
    exact (mem_gatherProcesses cfg raw s).mp hs
  · intro cfg raw p hp h1 h2 h3
    exact (mem_gatherProcesses cfg raw (mkSample cfg p)).mpr ⟨p, hp, h1, h2, h3, rfl⟩

/-- Witness for C2: the kept observation of the specification's example is
stored, with its hypotheses checked concretely. -/
theorem sampler_filter_policy_witness :
    mkSample ⟨[], [("root")], []⟩ ⟨("ffmpeg"), ("ann"), 80⟩
      ∈ gatherProcesses ⟨[], [("root")], []⟩
        [⟨("sshd"), ("root"), 50⟩, ⟨("vim"), ("ann"), 3⟩, ⟨("ffmpeg"), ("ann"), 80⟩] :=
  sampler_filter_policy.2.2.1 ⟨[], [("root")], []⟩
    [⟨("sshd"), ("root"), 50⟩, ⟨("vim"), ("ann"), 3⟩, ⟨("ffmpeg"), ("ann"), 80⟩]
    ⟨("ffmpeg"), ("ann"), 80⟩ (by decide) (by decide) (by decide) (by decide)

/-- Claim C10: in the legacy terminal viewer's view-model, after selecting the
user with the highest (truncated) summed CPU% as a machine's active user, the
result is discarded entirely whenever that selected user is `sshuser` or
`root`: the machine is reported with no active user at all and the
next-highest user is not promoted, even when other users have samples.  The
concrete conjuncts exhibit this on a map where root tops ann: the filtered
active user is `none` although ann has a sample. -/
theorem legacy_ignore_filter :
    (∀ (usage : CoreUsagePerUser) (au : ActiveUser), legacyActive usage = some au →
        au.user ∈ legacyIgnoreUsers → legacyActiveUser usage = none) ∧
    (∀ (usage : CoreUsagePerUser) (au : ActiveUser), legacyActiveUser usage = some au →
        legacyActive usage = some au ∧ au.user ∉ legacyIgnoreUsers) ∧
    legacyActiveUser exC10 = none ∧
    legacyActive exC10 = some ⟨("root"), 1, ("cc")⟩ ∧
    (("ann"), [⟨20, 0, ("vim")⟩]) ∈ exC10 := by
  refine ⟨?_, ?_, by decide, by decide, by decide⟩
  · intro usage au h hmem
    unfold legacyActiveUser
    rw [h]
    simp [Option.filter]
    exact hmem
  · intro usage au h
    unfold legacyActiveUser at h
    cases hac : legacyActive usage with
    | none => rw [hac] at h; simp [Option.filter] at h
    | some b =>
      rw [hac] at h
      simp [Option.filter] at h
      rcases h with ⟨hnot, rfl⟩
      exact ⟨rfl, hnot⟩

/-- Witness for C10: the ignore rule applied at the concrete map where root
tops ann. -/
theorem legacy_ignore_filter_witness : legacyActiveUser exC10 = none :=
  legacy_ignore_filter.1 exC10 ⟨("root"), 1, ("cc")⟩ (by decide) (by decide)

/-- Claim C8 (amended): re-running the view-model builder on the same
snapshot yields the same active user and task whenever a single user attains
the maximal truncated CPU sum; two runs are modeled as two iteration orders
of the same `by_users` hash map, that is, two permutations of its association
list.  (As stated the claim also covered exact ties, where the selection
follows the hash map's arbitrary iteration order and two runs may differ; see
the counterexample.) -/
theorem active_user_deterministic :
    ∀ (ps : List Process) (o₁ o₂ : List (String × List Process)),
      (byUsers ps).Perm o₁ → (byUsers ps).Perm o₂ →
      (∃ e ∈ byUsers ps, (∀ d ∈ byUsers ps, userSum d ≤ userSum e) ∧
          (∀ d ∈ byUsers ps, userSum d = userSum e → d = e)) →
      activeUserFrom o₁ = activeUserFrom o₂ := by
  intro ps o₁ o₂ h1 h2 hex
  rcases hex with ⟨e, he, hmax, huniq⟩
  have k1 : maxByKeyLast userSum o₁ = some e :=
    maxByKeyLast_of_uniqueMax userSum o₁ e (h1.mem_iff.mp he)
      (fun d hd => hmax d (h1.mem_iff.mpr hd))
      (fun d hd hde => huniq d (h1.mem_iff.mpr hd) hde)
  have k2 : maxByKeyLast userSum o₂ = some e :=
    maxByKeyLast_of_uniqueMax userSum o₂ e (h2.mem_iff.mp he)
      (fun d hd => hmax d (h2.mem_iff.mpr hd))
      (fun d hd hde => huniq d (h2.mem_iff.mpr hd) hde)
  unfold activeUserFrom
  rw [k1, k2]

/-- Witness for C8 at a two-user snapshot with distinct sums: the canonical
order and its reversal give the same active user. -/
theorem active_user_deterministic_witness :
    activeUserFrom (byUsers exC8u) = activeUserFrom ((byUsers exC8u).reverse) := by
  apply active_user_deterministic exC8u
  · exact List.Perm.refl _
  · exact (List.reverse_perm _).symm
  · exact ⟨(("b"), [⟨("y"), ("b"), 21⟩]), by decide, by decide, by decide⟩

/-- Counterexample to C8 as stated: on a snapshot with two users whose CPU
sums tie exactly, two iteration orders of the same user map (the canonical
association list and its reversal, a permutation of it) yield different
active users, so a two-run equality does not hold under ties. -/
theorem active_user_order_cex :
    (byUsers exC8).Perm ((byUsers exC8).reverse) ∧
    activeUserFrom (byUsers exC8) ≠ activeUserFrom ((byUsers exC8).reverse) :=
  ⟨(List.reverse_perm _).symm, by decide⟩

/-- Claim C5 (amended): for every machine snapshot, the view-model's active
user is absent exactly when the snapshot has no samples; otherwise the
reported user attains the maximal sum of integer-truncated (`as u64`) CPU
percentages among the users of the map (a tie being resolved by iteration
order), the reported core count is the number of that user's samples, and
the reported task is the name of one of that user's samples whose truncated
CPU percentage is maximal among them.  (As stated the claim used the exact
cumulative CPU% and the exact per-sample maximum; the code compares the
`as u64` truncations — see the counterexample.) -/
theorem active_user_selection :
    ∀ ps : List Process,
      (machineActiveUser ps = none ↔ ps = []) ∧
      (∀ au, machineActiveUser ps = some au →
        au.user ∈ userKeys ps ∧
        au.cores = (ps.filter fun p => p.user = au.user).length ∧
        (∀ e ∈ byUsers ps,
            userSum e ≤ userSum (au.user, ps.filter fun p => p.user = au.user)) ∧
        (∃ p ∈ ps.filter (fun q => q.user = au.user), p.name = au.task ∧
          ∀ q ∈ ps.filter (fun q => q.user = au.user),
            truncU64 q.usage ≤ truncU64 p.usage)) := by
  intro ps
  constructor
  · constructor
    · intro h
      unfold machineActiveUser activeUserFrom at h
      cases hm : maxByKeyLast userSum (byUsers ps) with
      | none => exact (byUsers_eq_nil_iff ps).mp ((maxByKeyLast_eq_none_iff _ _).mp hm)
      | some e => rw [hm] at h; cases h
    · intro h
      subst h
      rfl
  · intro au hau
    unfold machineActiveUser activeUserFrom at hau
    cases hm : maxByKeyLast userSum (byUsers ps) with
    | none => rw [hm] at hau; cases hau
    | some e =>
      rw [hm] at hau
      obtain ⟨u, qs⟩ := e
      have hau' := (Option.some.inj hau).symm
      have hmem := maxByKeyLast_mem userSum (byUsers ps) (u, qs) hm
      rcases (mem_byUsers ps (u, qs)).mp hmem with ⟨hk, hfil⟩
      simp only at hk hfil
      have h1 : au.user = u := by rw [hau']
      have h2 : au.cores = qs.length := by rw [hau']
      have h3 : au.task
          = ((maxByKeyLast (fun p => truncU64 p.usage) qs).map Process.name).getD ("?") := by
        rw [hau']
      have hfil' : ps.filter (fun p => p.user = au.user) = qs := by
        rw [h1, hfil]
      refine ⟨by rw [h1]; exact hk, ?_, ?_, ?_⟩
      · rw [hfil']
        exact h2
      · intro d hd
        have hle := maxByKeyLast_le userSum (byUsers ps) (u, qs) hm d hd
        rw [hfil', h1]
        exact hle
      · have hqs : qs ≠ [] := by
          rw [hfil]
          exact byUsers_filter_ne_nil ps u hk
        cases hp : maxByKeyLast (fun p => truncU64 p.usage) qs with
        | none => exact absurd ((maxByKeyLast_eq_none_iff _ _).mp hp) hqs
        | some p =>
          refine ⟨p, ?_, ?_, ?_⟩
          · rw [hfil']
            exact maxByKeyLast_mem _ _ _ hp
          · rw [h3, hp]
            rfl
          · intro q hq
            rw [hfil'] at hq
            exact maxByKeyLast_le _ _ _ hp q hq

/-- Witness for C5 at the truncation example's snapshot, whose computed
active user is `(b, 1, y)`. -/
theorem active_user_selection_witness :
    (⟨("b"), 1, ("y")⟩ : ActiveUser).user ∈ userKeys exC5 ∧
    (⟨("b"), 1, ("y")⟩ : ActiveUser).cores
        = (exC5.filter fun p => p.user = (⟨("b"), 1, ("y")⟩ : ActiveUser).user).length ∧
    (∀ e ∈ byUsers exC5, userSum e ≤ userSum ((⟨("b"), 1, ("y")⟩ : ActiveUser).user,
        exC5.filter fun p => p.user = (⟨("b"), 1, ("y")⟩ : ActiveUser).user)) ∧
    (∃ p ∈ exC5.filter (fun q => q.user = (⟨("b"), 1, ("y")⟩ : ActiveUser).user),
        p.name = (⟨("b"), 1, ("y")⟩ : ActiveUser).task ∧
      ∀ q ∈ exC5.filter (fun q => q.user = (⟨("b"), 1, ("y")⟩ : ActiveUser).user),
        truncU64 q.usage ≤ truncU64 p.usage) :=
  (active_user_selection exC5).2 ⟨("b"), 1, ("y")⟩ (by with_unfolding_all decide)

/-- Counterexample to C5 as stated: on `exC5` user `a` has the strictly
larger exact cumulative CPU% (21.8 against 21.0), yet the code reports `b`
because it compares the sums of the `as u64` truncations (20 against 21);
the task comparison truncates likewise. -/
theorem active_user_truncation_cex :
    (machineActiveUser exC5).map ActiveUser.user = some ("b") ∧
    ratSum (exC5.filter fun p => p.user = ("a"))
      > ratSum (exC5.filter fun p => p.user = ("b")) := by
  with_unfolding_all decide

/-- Claim C4 (amended): the hotness bucket is total and deterministic and
never exceeds `N - 1 = 9`; for a machine with at least one core and a
nonnegative load it equals `clamp(trunc(load_ratio * (N - 1)), 0, N - 1)` —
the `as usize` cast truncates rather than rounds; and when `core_count` is 0
the IEEE division produces `+inf` for a positive load, so the bucket is 9
(and 0 only when the load is not positive), not 0 as stated. -/
theorem hotness_truncation :
    (∀ (five : Rat) (cores : Nat), hotness five cores ≤ 9) ∧
    (∀ (five : Rat) (cores : Nat), 0 < cores → 0 ≤ five →
        hotness five cores = min (Rat.floor (five / (cores : Rat) * 9)).toNat 9) ∧
    (∀ five : Rat, 0 < five → hotness five 0 = 9) ∧
    (∀ five : Rat, five ≤ 0 → hotness five 0 = 0) := by
  refine ⟨?_, ?_, ?_, ?_⟩
  · intro five cores
    unfold hotness
    split
    · split
      · exact min_le_right _ _
      · omega
    · exact min_le_right _ _
  · intro five cores hc hf
    unfold hotness
    rw [if_neg (by omega)]
    unfold f64ToUsize
    have ht : ¬ (five / (cores : Rat) * 9 < 0) := by
      push_neg
      apply mul_nonneg
      · exact div_nonneg hf (by positivity)
      · norm_num
    rw [if_neg ht, min_assoc,
      min_eq_right (show (9 : Nat) ≤ USIZE_MAX by norm_num [USIZE_MAX])]
  · intro five hf
    unfold hotness
    rw [if_pos rfl, if_pos hf]
    decide
  · intro five hf
    unfold hotness
    rw [if_pos rfl, if_neg (not_lt.mpr hf)]

/-- Witness for C4: a one-load two-core machine sits in bucket
`trunc(0.5 * 9) = 4`, and the zero-core cases evaluate as the theorem
states. -/
theorem hotness_truncation_witness :
    hotness 1 2 ≤ 9 ∧
    hotness 1 2 = min (Rat.floor ((1 : Rat) / ((2 : Nat) : Rat) * 9)).toNat 9 ∧
    hotness 1 0 = 9 ∧ hotness 0 0 = 0 ∧ hotness 1 2 = 4 := by
  have h := hotness_truncation
  exact ⟨h.1 1 2, h.2.1 1 2 (by norm_num) (by norm_num), h.2.2.1 1 (by norm_num),
    h.2.2.2 0 (by norm_num), by with_unfolding_all decide⟩

/-- Counterexample to C4 as stated: with zero cores and a five-minute load of
1 the bucket is 9 (IEEE `1.0 / 0.0 = +inf`, whose saturating `as usize` cast
clamps to the top bucket), not 0. -/
theorem hotness_zero_cores_cex : hotness 1 0 = 9 ∧ hotness 1 0 ≠ 0 := by decide

theorem totalCores_eq (ms : List Info) :
    (ms.map fun i => (i.cpus.length : Rat) * 100).sum = (cpuCount ms : Rat) * 100 := by
  induction ms with
  | nil => simp [cpuCount]
  | cons i t ih =>
    have hc : cpuCount (i :: t) = i.cpus.length + cpuCount t := by
      simp [cpuCount]
    rw [List.map_cons, List.sum_cons, ih, hc]
    push_cast
    ring

/-- Claim C7 (amended): the fleet total usage is the sum of all per-core CPU
percentages divided by 100 times the total core count; it lies in `[0, 1]`
whenever the fleet has at least one core and every per-core percentage lies in
`[0, 100]`.  When the fleet's total core count is zero the code still divides
— `0.0 / 0.0` in f32 — and the result is NaN (embedded as `none`), not 0 as
stated. -/
theorem total_usage_bounds :
    (∀ ms : List Info, totalUsage ms = none ↔ cpuCount ms = 0) ∧
    (∀ (ms : List Info) (q : Rat), (∀ i ∈ ms, ∀ c ∈ i.cpus, 0 ≤ c ∧ c ≤ 100) →
        totalUsage ms = some q → 0 ≤ q ∧ q ≤ 1) := by
  constructor
  · intro ms
    unfold totalUsage
    simp only [totalCores_eq]
    constructor
    · intro h
      by_cases ht : ((cpuCount ms : Rat) * 100) = 0
      · have hz : (cpuCount ms : Rat) = 0 := by
          rcases mul_eq_zero.mp ht with h1 | h1
          · exact h1
          · norm_num at h1
        exact_mod_cast hz
      · rw [if_neg ht] at h
        cases h
    · intro h
      rw [if_pos (by rw [h]; norm_num)]
  · intro ms q hb h
    unfold totalUsage at h
    simp only [totalCores_eq] at h
    by_cases ht : ((cpuCount ms : Rat) * 100) = 0
    · rw [if_pos ht] at h
      cases h
    · rw [if_neg ht] at h
      have hq := Option.some.inj h
      have hpos : (0 : Rat) < (cpuCount ms : Rat) * 100 :=
        lt_of_le_of_ne (by positivity) (Ne.symm ht)
      have hnn : 0 ≤ (ms.map fun i => i.cpus.sum).sum := by
        apply List.sum_nonneg
        intro x hx
        rcases List.mem_map.mp hx with ⟨i, hi, rfl⟩
        exact List.sum_nonneg fun c hc => (hb i hi c hc).1
      have hle : (ms.map fun i => i.cpus.sum).sum
          ≤ (ms.map fun i => (i.cpus.length : Rat) * 100).sum := by
        apply List.sum_le_sum
        intro i hi
        calc i.cpus.sum ≤ i.cpus.length • (100 : Rat) :=
              List.sum_le_card_nsmul _ _ fun c hc => (hb i hi c hc).2
          _ = (i.cpus.length : Rat) * 100 := by rw [nsmul_eq_mul]
      rw [← hq]
      refine ⟨div_nonneg hnn hpos.le, ?_⟩
      rw [div_le_one hpos]
      exact hle.trans (le_of_eq (totalCores_eq ms))

/-- Witness for C7 at a single two-core machine running at 50% on each core:
the ratio is 1/2 and satisfies the bounds. -/
theorem total_usage_bounds_witness :
    (totalUsage [exC7] = none ↔ cpuCount [exC7] = 0) ∧
    (0 ≤ (1 : Rat) / 2 ∧ (1 : Rat) / 2 ≤ 1) :=
  ⟨total_usage_bounds.1 [exC7],
   total_usage_bounds.2 [exC7] ((1 : Rat) / 2) (by with_unfolding_all decide)
     (by with_unfolding_all decide)⟩

/-- Counterexample to C7 as stated: for the empty fleet (zero total cores)
the code computes `0.0 / 0.0`, IEEE NaN (embedded `none`), not the claimed
0. -/
theorem total_usage_zero_cores_cex : totalUsage [] = none ∧ totalUsage [] ≠ some 0 := by
  decide

theorem peruse_hostname_mem (bee : Machine → Option Info) (ms : List Machine)
    (hrep : ∀ m ∈ ms, ∀ i, bee m = some i → i.hostname = m.hostname) :
    ∀ e ∈ ms.filterMap (gather bee), e.info.hostname ∈ ms.map Machine.hostname := by
  intro e he
  rcases List.mem_filterMap.mp he with ⟨m, hm, hg⟩
  cases hb : bee m with
  | none =>
    rw [show gather bee m = none from by simp [gather, hb]] at hg
    cases hg
  | some i =>
    rw [show gather bee m = some ⟨m.room, m.note, i⟩ from by simp [gather, hb]] at hg
    rw [← Option.some.inj hg]
    exact List.mem_map.mpr ⟨m, hm, (hrep m hm i hb).symm ▸ rfl⟩

theorem peruse_hostname_nodup (bee : Machine → Option Info) :
    ∀ ms : List Machine,
      (∀ m ∈ ms, ∀ i, bee m = some i → i.hostname = m.hostname) →
      (ms.map Machine.hostname).Nodup →
      ((ms.filterMap (gather bee)).map fun e => e.info.hostname).Nodup := by
  intro ms
  induction ms with
  | nil =>
    intro _ _
    simp
  | cons m t ih =>
    intro hrep hnd
    rw [List.map_cons] at hnd
    have hnd1 : m.hostname ∉ t.map Machine.hostname := (List.nodup_cons.mp hnd).1
    have hnd2 := (List.nodup_cons.mp hnd).2
    have hrep' : ∀ m' ∈ t, ∀ i, bee m' = some i → i.hostname = m'.hostname :=
      fun m' hm' => hrep m' (List.mem_cons_of_mem m hm')
    cases hb : bee m with
    | none =>
      rw [List.filterMap_cons_none (by simp [gather, hb])]
      exact ih hrep' hnd2
    | some i =>
      rw [List.filterMap_cons_some
        (show gather bee m = some ⟨m.room, m.note, i⟩ from by simp [gather, hb])]
      rw [List.map_cons, List.nodup_cons]
      refine ⟨?_, ih hrep' hnd2⟩
      intro hin
      rcases List.mem_map.mp hin with ⟨e, he, heq⟩
      have hmem2 := peruse_hostname_mem bee t hrep' e he
      rw [heq] at hmem2
      rw [hrep m (List.mem_cons_self m t) i hb] at hmem2
      exact hnd1 hmem2

/-- Claim C6 (amended): a peruse run produces exactly one entry per
*successful roster entry* — so when the roster's hostnames are distinct (and
each machine's snapshot reports the hostname it was addressed by) the result
has at most one entry per hostname, every entry's hostname appears in the
roster, and a machine whose gather failed is entirely absent; with every
machine succeeding there is exactly one entry per roster entry.  (As stated
the claim also promised at-most-one entry per hostname for rosters that
repeat a hostname; the code does not deduplicate — see the counterexample,
where a doubled roster line yields two entries with the same hostname.) -/
theorem peruse_entry_uniqueness :
    (∀ (bee : Machine → Option Info) (ms : List Machine),
      (∀ m ∈ ms, ∀ i, bee m = some i → i.hostname = m.hostname) →
      (ms.map Machine.hostname).Nodup →
        ((peruse bee ms).entries.map fun e => e.info.hostname).Nodup ∧
        (∀ e ∈ (peruse bee ms).entries, e.info.hostname ∈ ms.map Machine.hostname) ∧
        (∀ m ∈ ms, bee m = none →
          ∀ e ∈ (peruse bee ms).entries, e.info.hostname ≠ m.hostname)) ∧
    (∀ (bee : Machine → Option Info) (ms : List Machine),
      (∀ m ∈ ms, (bee m).isSome) → (peruse bee ms).entries.length = ms.length) := by
  constructor
  · intro bee ms hrep hnd
    have he : (peruse bee ms).entries = ms.filterMap (gather bee) := rfl
    refine ⟨by rw [he]; exact peruse_hostname_nodup bee ms hrep hnd,
            by rw [he]; exact peruse_hostname_mem bee ms hrep, ?_⟩
    intro m hm hbm e hee heq
    rw [he] at hee
    rcases List.mem_filterMap.mp hee with ⟨m', hm', hg⟩
    cases hb : bee m' with
    | none =>
      rw [show gather bee m' = none from by simp [gather, hb]] at hg
      cases hg
    | some i =>
      rw [show gather bee m' = some ⟨m'.room, m'.note, i⟩ from by simp [gather, hb]] at hg
      have he2 := Option.some.inj hg
      have hhn : e.info.hostname = m'.hostname := by
        rw [← he2]
        exact hrep m' hm' i hb
      have hmm : m' = m := List.inj_on_of_nodup_map hnd hm' hm (by rw [← hhn]; exact heq)
      rw [hmm, hbm] at hb
      cases hb
  · intro bee ms hall
    have hlen := filterMap_length_add_none bee ms
    have hnil : (ms.filter fun m => (bee m).isNone) = [] := by
      rw [List.filter_eq_nil_iff]
      intro m hm
      cases hb : bee m with
      | none => exact absurd (hall m hm) (by simp [hb])
      | some i => simp [hb]
    rw [hnil] at hlen
    simp only [List.length_nil] at hlen
    show (ms.filterMap (gather bee)).length = ms.length
    omega

/-- Witness for C6: under `beeW` on the distinct three-machine roster the
entry hostnames are distinct and the failed machine `bad` is absent; with the
always-successful oracle the entry count equals the roster length. -/
theorem peruse_entry_uniqueness_witness :
    ((peruse beeW msW).entries.map fun e => e.info.hostname).Nodup ∧
    (∀ e ∈ (peruse beeW msW).entries, e.info.hostname ≠ ("bad")) ∧
    (peruse beeAll msW).entries.length = 3 := by
  have hrep : ∀ m ∈ msW, ∀ i, beeW m = some i → i.hostname = m.hostname := by
    intro m hm i h
    by_cases hc : m.hostname = ("bad")
    · rw [show beeW m = none from by simp [beeW, hc]] at h
      cases h
    · rw [show beeW m = some (mkInfo m.hostname) from by simp [beeW, hc]] at h
      rw [← Option.some.inj h]
      rfl
  have h := peruse_entry_uniqueness
  have h1 := h.1 beeW msW hrep (by decide)
  refine ⟨h1.1, ?_, h.2 beeAll msW (by decide)⟩
  intro e he
  exact h1.2.2 ⟨("bad"), ("lab"), none⟩ (by decide) (by decide) e he

/-- Counterexample to C6 as stated: a roster listing the same machine twice
produces two entries with the same hostname — the entries do not contain at
most one entry per hostname. -/
theorem peruse_duplicate_hostname_cex :
    ¬ (((peruse beeAll [mDup, mDup]).entries.map fun e => e.info.hostname).Nodup) ∧
    (peruse beeAll [mDup, mDup]).entries.length = 2 := by
  decide

theorem mem_fleetUserCounts (ms : List Info) (e : String × Nat) :
    e ∈ fleetUserCounts ms ↔ e.1 ∈ userKeys (fleetProcs ms) ∧
      e.2 = ((fleetProcs ms).filter fun p => p.user = e.1).length := by
  constructor
  · intro h
    rcases List.mem_map.mp h with ⟨u, hu, he⟩
    cases e
    cases he
    exact ⟨hu, rfl⟩
  · intro ⟨h1, h2⟩
    cases e
    simp only at h1 h2
    rw [h2]
    exact List.mem_map.mpr ⟨_, h1, rfl⟩

theorem mem_ranking (ms : List Info) (u : String) (c : Nat) :
    (u, c) ∈ ranking ms ↔ (u, c) ∈ fleetUserCounts ms := by
  unfold ranking tpuSorted
  constructor
  · intro h
    rcases List.mem_map.mp h with ⟨a, ha, he⟩
    rw [List.mem_reverse, List.mem_insertionSort] at ha
    rcases List.mem_map.mp ha with ⟨b, hb, he2⟩
    obtain ⟨a1, a2⟩ := a
    obtain ⟨b1, b2⟩ := b
    simp only [Prod.mk.injEq] at he he2
    rcases he with ⟨rfl, rfl⟩
    rcases he2 with ⟨rfl, rfl⟩
    exact hb
  · intro h
    apply List.mem_map.mpr
    refine ⟨(c, u), ?_, rfl⟩
    rw [List.mem_reverse, List.mem_insertionSort]
    exact List.mem_map.mpr ⟨(u, c), h, rfl⟩

theorem tpuSorted_sorted (ms : List Info) : (tpuSorted ms).Sorted leTpu := by
  haveI : IsTotal (Nat × String) leTpu := ⟨leTpu_total⟩
  haveI : IsTrans (Nat × String) leTpu := ⟨leTpu_trans⟩
  exact List.sorted_insertionSort leTpu _

/-- Claim C3 (amended): the fleet user ranking lists `(user, fleet-wide
sample count)` pairs, one per user appearing in the fleet with that user's
total sample count, sorted descending by count with ties broken by
*descending* user name; the displayed ranking excludes exactly the users with
a zero count or with `100 * count / total_core_count` below the 1% threshold
(an entry surviving when the fleet has zero cores, where the f32 division
yields `+inf`).  For users `{alice: 4, bob: 4, carl: 1}` over 10 cores the
pre-filter order is `[(bob, 4), (alice, 4), (carl, 1)]`.  (As stated the
claim broke ties by ascending name and expected
`[(alice, 4), (bob, 4), (carl, 1)]`; the code sorts ascending and then walks
the list in reverse, which reverses the tie order too — see the
counterexample.) -/
theorem ranking_sorted_and_threshold :
    (∀ ms : List Info, (ranking ms).Sorted fun a b =>
        b.2 < a.2 ∨ (a.2 = b.2 ∧ strLeB b.1 a.1 = true)) ∧
    (∀ (ms : List Info) (u : String) (c : Nat), (u, c) ∈ ranking ms ↔
        u ∈ userKeys (fleetProcs ms) ∧
        c = ((fleetProcs ms).filter fun p => p.user = u).length) ∧
    (∀ (ms : List Info) (e : String × Nat),
        e ∈ statsView ms ↔ e ∈ ranking ms ∧ e.2 ≠ 0 ∧
          (cpuCount ms = 0 ∨ 100 * e.2 ≥ cpuCount ms)) ∧
    ranking [exC3] = [(("bob"), 4), (("alice"), 4), (("carl"), 1)] := by
  refine ⟨?_, ?_, ?_, by decide⟩
  · intro ms
    have hs := tpuSorted_sorted ms
    have hrev : (tpuSorted ms).reverse.Pairwise fun a b => leTpu b a :=
      List.pairwise_reverse.mpr hs
    unfold ranking
    rw [List.Sorted, List.pairwise_map]
    refine hrev.imp ?_
    intro a b hab
    rcases hab with h | ⟨h1, h2⟩
    · exact Or.inl h
    · exact Or.inr ⟨h1.symm, h2⟩
  · intro ms u c
    rw [mem_ranking]
    exact mem_fleetUserCounts ms (u, c)
  · intro ms e
    unfold statsView
    simp [List.mem_filter]

/-- Witness for C3: the concrete fleet's ranking is sorted as stated and the
1% filter keeps carl (10% of 10 cores). -/
theorem ranking_sorted_and_threshold_witness :
    (ranking [exC3]).Sorted (fun a b => b.2 < a.2 ∨ (a.2 = b.2 ∧ strLeB b.1 a.1 = true)) ∧
    ((("carl"), 1) ∈ statsView [exC3] ↔ (("carl"), 1) ∈ ranking [exC3] ∧ (1 : Nat) ≠ 0 ∧
        (cpuCount [exC3] = 0 ∨ 100 * 1 ≥ cpuCount [exC3])) :=
  ⟨ranking_sorted_and_threshold.1 [exC3],
   ranking_sorted_and_threshold.2.2.1 [exC3] ((("carl")), 1)⟩

/-- Counterexample to C3 as stated: for `{alice: 4, bob: 4, carl: 1}` the
code's pre-filter ranking is `[(bob, 4), (alice, 4), (carl, 1)]` — the
alice/bob tie is broken by descending, not ascending, user name. -/
theorem ranking_tie_break_cex :
    ranking [exC3] = [(("bob"), 4), (("alice"), 4), (("carl"), 1)] ∧
    ranking [exC3] ≠ [(("alice"), 4), (("bob"), 4), (("carl"), 1)] := by
  decide

theorem parseMachinesAux_hostname_src :
    ∀ (lines : List String) (room : Option String) (m : Machine),
      m ∈ parseMachinesAux room lines →
      ∃ line ∈ lines, ∃ pr : String × String,
        splitOnce ':' (stripComment line) = some pr ∧ m.hostname = pr.1.trim := by
  intro lines
  induction lines with
  | nil =>
    intro room m hm
    simp [parseMachinesAux] at hm
  | cons line rest ih =>
    intro room m hm
    unfold parseMachinesAux at hm
    by_cases hemp : stripComment line = ""
    · rw [if_pos hemp] at hm
      rcases ih room m hm with ⟨l, hl, pr, hpr, hh⟩
      exact ⟨l, List.mem_cons_of_mem line hl, pr, hpr, hh⟩
    · rw [if_neg hemp] at hm
      cases hh : headerOf (stripComment line) with
      | some h =>
        rw [hh] at hm
        rcases ih (some h) m hm with ⟨l, hl, pr, hpr, hh2⟩
        exact ⟨l, List.mem_cons_of_mem line hl, pr, hpr, hh2⟩
      | none =>
        rw [hh] at hm
        cases hs : splitOnce ':' (stripComment line) with
        | none =>
          rw [show parseMachineLine (room.getD ("orphan")) (stripComment line) = none from by
            simp [parseMachineLine, hs]] at hm
          rcases ih room m hm with ⟨l, hl, pr, hpr, hh2⟩
          exact ⟨l, List.mem_cons_of_mem line hl, pr, hpr, hh2⟩
        | some pr =>
          rw [show parseMachineLine (room.getD ("orphan")) (stripComment line)
              = some ⟨pr.1.trim, room.getD ("orphan"),
                  if pr.2.trim = "" then none else some pr.2.trim⟩ from by
            simp [parseMachineLine, hs]] at hm
          rcases List.mem_cons.mp hm with hm | hm
          · exact ⟨line, List.mem_cons_self line rest, pr, hs, by rw [hm]⟩
          · rcases ih room m hm with ⟨l, hl, pr2, hpr, hh2⟩
            exact ⟨l, List.mem_cons_of_mem line hl, pr2, hpr, hh2⟩

/-- Claim C9 (amended): a malformed roster machine line — non-comment,
non-blank, not a header, and without the colon of the `hostname: note` shape
— is *silently skipped*: parsing always succeeds, the offending line
contributes nothing (no error and no report of its line number or text), the
surrounding machines are still parsed, and the run proceeds to gathering;
every parsed machine stems from a line that does split at a colon.  (As
stated the claim called such a line a fatal startup ConfigError; the code's
`let ... else continue` drops it instead — see the counterexample.) -/
theorem roster_malformed_skip :
    (∀ (room : Option String) (rest : List String) (bad : String),
        stripComment bad ≠ "" → headerOf (stripComment bad) = none →
        splitOnce ':' (stripComment bad) = none →
        parseMachinesAux room (bad :: rest) = parseMachinesAux room rest) ∧
    (∀ (lines : List String) (m : Machine), m ∈ parseMachines lines →
        ∃ line ∈ lines, ∃ pr : String × String,
          splitOnce ':' (stripComment line) = some pr ∧ m.hostname = pr.1.trim) ∧
    parseMachines [("[lab]"), ("host1: ann"), ("HELLO WORLD"), ("host2: bob")]
      = parseMachines [("[lab]"), ("host1: ann"), ("host2: bob")] := by
  refine ⟨?_, ?_, by with_unfolding_all decide⟩
  · intro room rest bad h1 h2 h3
    conv_lhs => rw [parseMachinesAux]
    rw [if_neg h1, h2]
    rw [show parseMachineLine (room.getD ("orphan")) (stripComment bad) = none from by
      simp [parseMachineLine, h3]]
  · intro lines m hm
    exact parseMachinesAux_hostname_src lines none m hm

/-- Witness for C9: the skip rule applied to the concrete malformed line, and
the origin of a concretely parsed machine. -/
theorem roster_malformed_skip_witness :
    parseMachinesAux (some ("lab")) [("HELLO WORLD"), ("host2: bob")]
        = parseMachinesAux (some ("lab")) [("host2: bob")] ∧
    (∃ line ∈ [("host1: ann")], ∃ pr : String × String,
        splitOnce ':' (stripComment line) = some pr ∧
        (Machine.mk ("host1") ("orphan") (some ("ann"))).hostname = pr.1.trim) :=
  ⟨roster_malformed_skip.1 (some ("lab")) [("host2: bob")] ("HELLO WORLD")
      (by with_unfolding_all decide) (by with_unfolding_all decide)
      (by with_unfolding_all decide),
   roster_malformed_skip.2.1 [("host1: ann")] ⟨("host1"), ("orphan"), some ("ann")⟩
      (by with_unfolding_all decide)⟩

/-- Counterexample to C9 as stated: a roster containing the malformed line
`HELLO WORLD` (no colon) parses successfully to exactly the machines of the
well-formed lines — the malformed line is dropped without any error, rather
than being a fatal ConfigError. -/
theorem roster_malformed_line_cex :
    parseMachines [("[lab]"), ("host1: ann"), ("HELLO WORLD"), ("host2: bob")]
        = [⟨("host1"), ("lab"), some ("ann")⟩, ⟨("host2"), ("lab"), some ("bob")⟩] ∧
    stripComment ("HELLO WORLD") ≠ "" ∧
    headerOf (stripComment ("HELLO WORLD")) = none ∧
    splitOnce ':' (stripComment ("HELLO WORLD")) = none := by
  with_unfolding_all decide
